import Mathlib

/-!
Verification of the dp traffic-routing engine (src/pkg/server/server.go)
against its specification.

The Go server state (`Server`, server.go lines 18-31) is embedded shallowly:

* `group` (weight float64, servers []string) becomes `Group` with the weight
  as a rational number;
* the Go map `portGroups : map[int]map[string]group` becomes an association
  list keyed by the port, whose values are association lists keyed by the
  group name (Go map keys are unique, so theorems that re-read a key after
  iterating assume `keysNodup`);
* `terminateSignals : map[int]chan struct{}` becomes an association list from
  port to the current generation number of its token; closing a channel is
  recorded in `closedGens` and replacing it increments the generation;
* the random draws of the selector (`rand.Float64()`, `rand.Intn`) become
  explicit oracle parameters.
-/

namespace DP

/-- Embedding of `group` (server.go lines 28-31). -/
structure Group where
  weight : ℚ
  servers : List String
deriving DecidableEq

/-- One port's routing table: group name to group, unique keys. -/
abbrev GroupTable := List (String × Group)

/-- The registry `portGroups` (server.go line 24): port to routing table. -/
abbrev PortGroups := List (Nat × GroupTable)

/-- Go map read `t[name]` on a port's table. -/
def lookupGroup : GroupTable → String → Option Group
  | [], _ => none
  | (n, g) :: rest, name => if n = name then some g else lookupGroup rest name

/-- Go map write `t[name] = g` on a port's table. -/
def setGroup : GroupTable → String → Group → GroupTable
  | [], name, g => [(name, g)]
  | (n, g0) :: rest, name, g =>
    if n = name then (n, g) :: rest else (n, g0) :: setGroup rest name g

/-- Go `delete(t, name)` on a port's table. -/
def removeGroup : GroupTable → String → GroupTable
  | [], _ => []
  | (n, g0) :: rest, name =>
    if n = name then removeGroup rest name else (n, g0) :: removeGroup rest name

/-- Go map read `portGroups[port]`. -/
def lookupTable : PortGroups → Nat → Option GroupTable
  | [], _ => none
  | (p, t) :: rest, port => if p = port then some t else lookupTable rest port

/-- Go map write `portGroups[port] = t`. -/
def setTable : PortGroups → Nat → GroupTable → PortGroups
  | [], port, t => [(port, t)]
  | (p, t0) :: rest, port, t =>
    if p = port then (p, t) :: rest else (p, t0) :: setTable rest port t

/-- The Go-map representation invariant: keys occur at most once. -/
def keysNodup (t : GroupTable) : Prop := (t.map Prod.fst).Nodup

instance (t : GroupTable) : Decidable (keysNodup t) := by
  unfold keysNodup; infer_instance

/-- Embedding of `deleteGroup` (server.go lines 295-302): removes the named group if the
port's table exists; a missing port or group is a no-op. -/
def deleteGroup (pgs : PortGroups) (port : Nat) (name : String) : PortGroups :=
  match lookupTable pgs port with
  | none => pgs
  | some t => setTable pgs port (removeGroup t name)

/-- Embedding of `setGroupServers` (server.go lines 304-325): ensures the port's table
exists, then upserts the group.  On update the servers are always replaced
and the weight only when the supplied weight is positive; on create the
supplied weight is stored as given. -/
def setGroupServers (pgs : PortGroups) (port : Nat) (name : String)
    (servers : List String) (weight : ℚ) : PortGroups :=
  let t := (lookupTable pgs port).getD []
  let t' :=
    match lookupGroup t name with
    | some found =>
      setGroup t name
        { found with
          servers := servers
          weight := if 0 < weight then weight else found.weight }
    | none => setGroup t name { weight := weight, servers := servers }
  setTable pgs port t'

/-- The zeroing loop of `setActiveGroups` (server.go lines 337-340): every
group's weight in the port's table is set to 0. -/
def zeroWeights (t : GroupTable) : GroupTable :=
  t.map fun ng => (ng.1, { ng.2 with weight := 0 })

/-- One iteration of the activation loop (server.go lines 345-362) for the
pair (group name, padded weight): a missing group is ignored; a found group
is written back, its weight updated only when the weight is positive.  The
`totalWeight` and `found` variables of the source only feed log lines and
are omitted. -/
def activateStep (t : GroupTable) (p : String × ℚ) : GroupTable :=
  match lookupGroup t p.1 with
  | none => t
  | some found =>
    setGroup t p.1 (if 0 < p.2 then { found with weight := p.2 } else found)

/-- The (name, weight) pairs the activation loop runs over: `groups` indexed,
with `weights[i]` defaulting to 0 past the end (server.go lines 345-349). -/
def activationPairs (groups : List String) (weights : List ℚ) : List (String × ℚ) :=
  groups.enum.map fun ig => (ig.2, weights.getD ig.1 0)

/-- Embedding of `setActiveGroups` (server.go lines 327-367): ensures the port's table
exists, zeroes every weight, then applies the activation loop. -/
def setActiveGroups (pgs : PortGroups) (port : Nat) (groups : List String)
    (weights : List ℚ) : PortGroups :=
  let t := (lookupTable pgs port).getD []
  setTable pgs port ((activationPairs groups weights).foldl activateStep (zeroWeights t))

/-! ## Weighted selector (server.go lines 92-154) -/

/-- An entry of the selector's `activeGroups` slice (server.go lines 101-104). -/
structure ActiveGroup where
  name : String
  weight : ℚ
deriving DecidableEq

/-- The filtering loop (server.go lines 107-115): the groups of the table
whose weight is positive and whose server list is non-empty, in table order
(Go map iteration visits an arbitrary but fixed set of entries; the claims
proved below do not depend on the order). -/
def activeGroupsOf (t : GroupTable) : List ActiveGroup :=
  (t.filter fun ng => decide (0 < ng.2.weight) && !ng.2.servers.isEmpty).map
    fun ng => { name := ng.1, weight := ng.2.weight }

/-- The running `totalWeight`, accumulated over the same filtered groups
(server.go line 113). -/
def totalWeightOf (gs : List ActiveGroup) : ℚ :=
  (gs.map fun g => g.weight).sum

/-- The cumulative-weight scan (server.go lines 123-132): starting from the
running total `c`, `selectedGroup` becomes the name of the first group whose
cumulative weight reaches the draw `r`.  When the scan falls through,
`selectedGroup` keeps its zero value, the empty string — the same sentinel
the source then tests, so a selected group literally named `""` is
indistinguishable from no selection, exactly as in the source. -/
def pickGroup : List ActiveGroup → ℚ → ℚ → String
  | [], _, _ => ""
  | g :: rest, r, c =>
    if r ≤ c + g.weight then g.name else pickGroup rest r (c + g.weight)

/-- What one call of `selectServerByWeight` does to the connection being
accepted.  `noRoute` is the empty-string return (the caller closes the
client); `fatalExit` is `zerolog`'s `Fatal`, which calls `os.Exit(1)` after
logging and so terminates the whole process. -/
inductive Outcome where
  | noRoute
  | selected (addr : String)
  | fatalExit
deriving DecidableEq

/-- Embedding of `selectServerByWeight` (server.go lines 92-154).  The two random draws
are oracle parameters: `f` stands for `rand.Float64()` (in `[0,1)` for any
real execution) and `idx` for the argument sequence of `rand.Intn`, reduced
modulo the server count exactly as `rand.Intn(len(servers))` keeps its result
below `len(servers)`. -/
def selectServerByWeight (pgs : PortGroups) (port : Nat) (f : ℚ) (idx : Nat) :
    Outcome :=
  match lookupTable pgs port with
  | none => Outcome.noRoute
  | some portGroup =>
    let active := activeGroupsOf portGroup
    if active = [] then Outcome.noRoute
    else
      let r := f * totalWeightOf active
      let selectedGroup := pickGroup active r 0
      if selectedGroup = "" then Outcome.fatalExit
      else
        let servers :=
          ((lookupGroup portGroup selectedGroup).getD
            { weight := 0, servers := [] }).servers
        if servers = [] then Outcome.fatalExit
        else Outcome.selected (servers.getD (idx % servers.length) "")

/-! ## Drain controller and activation handler (server.go lines 33-48, 272-293)

A terminate-signal channel is represented by the generation number of the
port's current token; closing the channel records the pair (port, generation)
in `closedGens`, and `make(chan struct{})` replacing it increments the
generation. -/

/-- The `terminateSignals` map (server.go line 25): port to current token generation. -/
abbrev Signals := List (Nat × Nat)

/-- Go map read `terminateSignals[port]`; `none` is the missing-key case, in
which Go yields the zero value, a nil channel. -/
def lookupSignal : Signals → Nat → Option Nat
  | [], _ => none
  | (p, g) :: rest, port => if p = port then some g else lookupSignal rest port

/-- Go map write `terminateSignals[port] = ch`. -/
def setSignal : Signals → Nat → Nat → Signals
  | [], port, g => [(port, g)]
  | (p, g0) :: rest, port, g =>
    if p = port then (p, g) :: rest else (p, g0) :: setSignal rest port g

/-- The mutable server state the claims touch: the registry, the terminate
signals and the set of already-closed token generations. -/
structure ServerState where
  portGroups : PortGroups
  terminateSignals : Signals
  closedGens : List (Nat × Nat)
deriving DecidableEq

/-- Embedding of `New` (server.go lines 33-48): an empty table and a fresh terminate
signal for each startup port, and for no other port. -/
def New (ports : List Nat) : ServerState :=
  { portGroups := ports.map fun p => (p, [])
    terminateSignals := ports.map fun p => (p, 0)
    closedGens := [] }

/-- Result of one `handleActivation` call.  `panicked` is the run that closed
a nil channel: the handler goroutine dies there, and the state it leaves
behind (registry already mutated, signals untouched) is carried along. -/
inductive ActivationResult where
  | ok (st : ServerState)
  | panicked (st : ServerState)
deriving DecidableEq

/-- The state mutations of `handleActivation` (server.go lines 286-292),
after the port and body have parsed: `setActiveGroups` first, then
`close(svr.terminateSignals[port])` followed by installing a fresh channel.
When the port has no terminate signal the map read yields a nil channel and
`close(nil)` panics. -/
def handleActivation (st : ServerState) (port : Nat) (groups : List String)
    (weights : List ℚ) : ActivationResult :=
  let st1 := { st with portGroups := setActiveGroups st.portGroups port groups weights }
  match lookupSignal st1.terminateSignals port with
  | none => ActivationResult.panicked st1
  | some g =>
    ActivationResult.ok
      { st1 with
        terminateSignals := setSignal st1.terminateSignals port (g + 1)
        closedGens := (port, g) :: st1.closedGens }

/-! ## One proxied connection against concurrent activations
(server.go lines 156-175 and 288-291)

`handleClient` dials, spawns the two copy loops, increments the connection
counter and only then evaluates `svr.terminateSignals[port]` in the receive
at line 173.  The model keeps, for one connection on one port, the
connection's phase, the port's current token generation, the set of closed
generations, and a ghost field `dialGen` recording which generation was live
when the dial succeeded (the code does not store it; the specification says
the connection must wait on it). -/

/-- Phase of one `handleClient` run: dial pending, dial succeeded (before the
line-173 receive is reached), blocked on a token generation, finished. -/
inductive ConnPhase where
  | started
  | dialed
  | waiting (g : Nat)
  | done
deriving DecidableEq

/-- One connection plus its port's drain state. -/
structure ConnSys where
  phase : ConnPhase
  dialGen : Option Nat
  gen : Nat
  closedList : List Nat
deriving DecidableEq

/-- Interleaved small steps of the connection's goroutine and of activation
calls on its port. -/
inductive CStep : ConnSys → ConnSys → Prop where
  /-- `net.Dial` returns without error (server.go line 157); the ghost field
  records the token generation live at that instant. -/
  | dialOk (s : ConnSys) : s.phase = ConnPhase.started →
      CStep s { s with phase := ConnPhase.dialed, dialGen := some s.gen }
  /-- The receive `<-svr.terminateSignals[port]` (server.go line 173) starts:
  the map is read at this moment, so the connection blocks on the generation
  current now. -/
  | blockOnToken (s : ConnSys) : s.phase = ConnPhase.dialed →
      CStep s { s with phase := ConnPhase.waiting s.gen }
  /-- An activation call on the port runs its lines 289-290: the current
  token is closed and a fresh one installed. -/
  | advanceGen (s : ConnSys) :
      CStep s { s with gen := s.gen + 1, closedList := s.gen :: s.closedList }
  /-- A connection waiting on a closed generation unblocks. -/
  | wake (s : ConnSys) (g : Nat) : s.phase = ConnPhase.waiting g →
      g ∈ s.closedList → CStep s { s with phase := ConnPhase.done }

/-- Executions: the reflexive-transitive closure of the interleaved steps. -/
def CReach : ConnSys → ConnSys → Prop := Relation.ReflTransGen CStep

/-- The property claimed of the code: whenever the connection is blocked on a
token generation, that generation is the one that was live at dial success. -/
def waitsOnDialGen (s : ConnSys) : Prop :=
  ∀ g, s.phase = ConnPhase.waiting g → s.dialGen = some g

/-! ## Derived notions used by the theorem statements -/

/-- The weight a single group named `n` ends up with after the activation
loop runs over the pairs `l`, starting from weight `w`: scanning the pairs in
order, the weight becomes `p.2` at every pair for `n` whose weight is
positive, exactly the per-index rule of the specification. -/
def weightAfter : List (String × ℚ) → String → ℚ → ℚ
  | [], _, w => w
  | p :: rest, n, w => weightAfter rest n (if p.1 = n ∧ 0 < p.2 then p.2 else w)

/-- The weight the specification assigns to group `n` by
`setActiveGroups(port, groups, weights)`: start from the zeroed weight and
apply the per-index rule over the (name, padded weight) pairs. -/
def activationWeight (groups : List String) (weights : List ℚ) (n : String) : ℚ :=
  weightAfter (activationPairs groups weights) n 0

/-- Every group of the table has a non-negative weight. -/
def tableNonneg (t : GroupTable) : Bool :=
  t.all fun ng => decide (0 ≤ ng.2.weight)

/-- The spec's weight invariant: no group of any port has a negative weight. -/
def nonnegWeights (pgs : PortGroups) : Bool :=
  pgs.all fun pt => tableNonneg pt.2

/-! ## Concrete fixtures used by the witness theorems -/

/-- A three-group table: two active groups and one group that is active with
weight 1. -/
def sampleTable : GroupTable :=
  [("a", { weight := 2, servers := ["s1"] }),
   ("b", { weight := 3, servers := ["s2"] }),
   ("c", { weight := 1, servers := ["s3"] })]

/-- A registry holding `sampleTable` on port 26257. -/
def sampleRegistry : PortGroups := [(26257, sampleTable)]

/-- A table with one active and one inactive group. -/
def drainTable : GroupTable :=
  [("a", { weight := 2, servers := ["s1", "s2"] }),
   ("b", { weight := 0, servers := ["s3"] })]

/-- A registry holding `drainTable` on port 26257. -/
def drainRegistry : PortGroups := [(26257, drainTable)]

/-! ## Association-list lemmas -/

theorem lookupGroup_setGroup_self (t : GroupTable) (name : String) (g : Group) :
    lookupGroup (setGroup t name g) name = some g := by
  induction t with
  | nil => simp [setGroup, lookupGroup]
  | cons hd rest ih =>
    by_cases h : hd.1 = name
    · simp [setGroup, lookupGroup, h]
    · simp [setGroup, lookupGroup, h, ih]

theorem lookupGroup_setGroup_ne (t : GroupTable) (name m : String) (g : Group)
    (h : m ≠ name) : lookupGroup (setGroup t name g) m = lookupGroup t m := by
  induction t with
  | nil => simp [setGroup, lookupGroup, Ne.symm h]
  | cons hd rest ih =>
    by_cases h1 : hd.1 = name
    · simp [setGroup, lookupGroup, h1, Ne.symm h]
    · by_cases h2 : hd.1 = m
      · simp [setGroup, lookupGroup, h1, h2, h]
      · simp [setGroup, lookupGroup, h1, h2, ih]

theorem lookupTable_setTable_self (pgs : PortGroups) (port : Nat) (t : GroupTable) :
    lookupTable (setTable pgs port t) port = some t := by
  induction pgs with
  | nil => simp [setTable, lookupTable]
  | cons hd rest ih =>
    by_cases h : hd.1 = port
    · simp [setTable, lookupTable, h]
    · simp [setTable, lookupTable, h, ih]

theorem lookupTable_setTable_ne (pgs : PortGroups) (port q : Nat) (t : GroupTable)
    (h : q ≠ port) : lookupTable (setTable pgs port t) q = lookupTable pgs q := by
  induction pgs with
  | nil => simp [setTable, lookupTable, Ne.symm h]
  | cons hd rest ih =>
    by_cases h1 : hd.1 = port
    · simp [setTable, lookupTable, h1, Ne.symm h]
    · by_cases h2 : hd.1 = q
      · simp [setTable, lookupTable, h1, h2, h]
      · simp [setTable, lookupTable, h1, h2, ih]

theorem lookupGroup_zeroWeights (t : GroupTable) (n : String) :
    lookupGroup (zeroWeights t) n =
      (lookupGroup t n).map fun g => { g with weight := 0 } := by
  induction t with
  | nil => simp [zeroWeights, lookupGroup]
  | cons hd rest ih =>
    by_cases h : hd.1 = n
    · simp [zeroWeights, lookupGroup, h]
    · simpa [zeroWeights, lookupGroup, h] using ih

theorem mem_of_lookupGroup {t : GroupTable} {n : String} {g : Group}
    (h : lookupGroup t n = some g) : (n, g) ∈ t := by
  induction t with
  | nil => simp [lookupGroup] at h
  | cons hd rest ih =>
    by_cases h1 : hd.1 = n
    · rw [lookupGroup, if_pos h1] at h
      have h2 : hd = (n, g) := Prod.ext h1 (Option.some.inj h)
      rw [← h2]
      exact List.mem_cons_self hd rest
    · rw [lookupGroup, if_neg h1] at h
      exact List.mem_cons_of_mem _ (ih h)

theorem lookupGroup_of_mem_nodup {t : GroupTable} {n : String} {g : Group}
    (hnd : keysNodup t) (h : (n, g) ∈ t) : lookupGroup t n = some g := by
  induction t with
  | nil => simp at h
  | cons hd rest ih =>
    rcases List.mem_cons.mp h with h1 | h1
    · rw [← h1]
      simp [lookupGroup]
    · have hne : hd.1 ≠ n := by
        intro he
        have : n ∈ rest.map Prod.fst := List.mem_map.mpr ⟨(n, g), h1, rfl⟩
        rw [keysNodup, List.map_cons, List.nodup_cons, he] at hnd
        exact hnd.1 this
      have hnd' : keysNodup rest := by
        rw [keysNodup, List.map_cons, List.nodup_cons] at hnd
        exact hnd.2
      simp [lookupGroup, hne, ih hnd' h1]

theorem lookupGroup_activateStep (u : GroupTable) (p : String × ℚ) (n : String) :
    lookupGroup (activateStep u p) n =
      (lookupGroup u n).map fun g =>
        { g with weight := if p.1 = n ∧ 0 < p.2 then p.2 else g.weight } := by
  unfold activateStep
  cases hfound : lookupGroup u p.1 with
  | none =>
    by_cases hpn : p.1 = n
    · subst hpn
      rw [hfound]
      rfl
    · cases lookupGroup u n <;> simp [hpn]
  | some found =>
    by_cases hpn : p.1 = n
    · subst hpn
      rw [hfound]
      by_cases hw : 0 < p.2
      · simp [lookupGroup_setGroup_self, hw]
      · simp [lookupGroup_setGroup_self, hw]
    · rw [lookupGroup_setGroup_ne u p.1 n _ (Ne.symm hpn)]
      cases lookupGroup u n <;> simp [hpn]

theorem lookupGroup_foldl_activate (l : List (String × ℚ)) (u : GroupTable)
    (n : String) :
    lookupGroup (l.foldl activateStep u) n =
      (lookupGroup u n).map fun g => { g with weight := weightAfter l n g.weight } := by
  induction l generalizing u with
  | nil => cases h : lookupGroup u n <;> simp [weightAfter, h]
  | cons p rest ih =>
    rw [List.foldl_cons, ih (activateStep u p), lookupGroup_activateStep]
    cases h : lookupGroup u n <;> simp [weightAfter, h]

theorem pickGroup_mem_of_le (gs : List ActiveGroup) (r : ℚ) :
    ∀ c : ℚ, gs ≠ [] → r ≤ c + totalWeightOf gs →
      pickGroup gs r c ∈ gs.map fun g => g.name := by
  induction gs with
  | nil => intro c hne _; exact absurd rfl hne
  | cons g rest ih =>
    intro c _ hr
    rw [pickGroup]
    by_cases h : r ≤ c + g.weight
    · rw [if_pos h, List.map_cons]
      exact List.mem_cons_self _ _
    · rw [if_neg h]
      cases rest with
      | nil =>
        exfalso
        apply h
        simpa [totalWeightOf] using hr
      | cons g2 rest2 =>
        rw [List.map_cons]
        refine List.mem_cons_of_mem _ (ih (c + g.weight) (by simp) ?_)
        have ht : totalWeightOf (g :: g2 :: rest2)
            = g.weight + totalWeightOf (g2 :: rest2) := by
          simp [totalWeightOf]
        rw [ht] at hr
        linarith

theorem pickGroup_mem_of_ne (gs : List ActiveGroup) (r : ℚ) :
    ∀ c : ℚ, pickGroup gs r c ≠ "" →
      pickGroup gs r c ∈ gs.map fun g => g.name := by
  induction gs with
  | nil => intro c h; exact absurd rfl h
  | cons g rest ih =>
    intro c h
    rw [pickGroup] at h ⊢
    by_cases hc : r ≤ c + g.weight
    · rw [if_pos hc] at h ⊢
      rw [List.map_cons]
      exact List.mem_cons_self _ _
    · rw [if_neg hc] at h ⊢
      rw [List.map_cons]
      exact List.mem_cons_of_mem _ (ih _ h)

theorem activeGroupsOf_mem {t : GroupTable} {ag : ActiveGroup}
    (h : ag ∈ activeGroupsOf t) :
    ∃ g : Group, (ag.name, g) ∈ t ∧ 0 < g.weight ∧ g.servers ≠ [] ∧
      g.weight = ag.weight := by
  unfold activeGroupsOf at h
  rcases List.mem_map.mp h with ⟨ng, hmem, heq⟩
  rcases List.mem_filter.mp hmem with ⟨hin, hcond⟩
  rw [Bool.and_eq_true, decide_eq_true_iff] at hcond
  refine ⟨ng.2, ?_, hcond.1, ?_, ?_⟩
  · rw [← heq]; exact hin
  · intro he
    rw [he] at hcond
    simp at hcond
  · rw [← heq]

theorem activeGroupsOf_pos {t : GroupTable} {ag : ActiveGroup}
    (h : ag ∈ activeGroupsOf t) : 0 < ag.weight := by
  rcases activeGroupsOf_mem h with ⟨g, _, hw, _, he⟩
  rw [← he]; exact hw

theorem totalWeightOf_pos {gs : List ActiveGroup} (hne : gs ≠ [])
    (hpos : ∀ g ∈ gs, 0 < g.weight) : 0 < totalWeightOf gs := by
  cases gs with
  | nil => exact absurd rfl hne
  | cons g rest =>
    have h1 : 0 < g.weight := hpos g (List.mem_cons_self g rest)
    have h2 : 0 ≤ totalWeightOf rest := by
      unfold totalWeightOf
      apply List.sum_nonneg
      intro x hx
      rcases List.mem_map.mp hx with ⟨g2, hg2, he⟩
      rw [← he]
      exact le_of_lt (hpos g2 (List.mem_cons_of_mem g hg2))
    have ht : totalWeightOf (g :: rest) = g.weight + totalWeightOf rest := by
      simp [totalWeightOf]
    rw [ht]
    linarith

theorem getD_mod_mem {l : List String} (h : l ≠ []) (idx : Nat) :
    l.getD (idx % l.length) "" ∈ l := by
  have hlen : 0 < l.length := List.length_pos.mpr h
  have hlt : idx % l.length < l.length := Nat.mod_lt idx hlen
  rw [List.getD_eq_getElem _ _ hlt]
  exact List.getElem_mem hlt

theorem lookupSignal_new_none {ports : List Nat} {port : Nat} (h : port ∉ ports) :
    lookupSignal (ports.map fun p => (p, 0)) port = none := by
  induction ports with
  | nil => rfl
  | cons hd rest ih =>
    have h1 : hd ≠ port := fun he => h (he ▸ List.mem_cons_self hd rest)
    have h2 : port ∉ rest := fun hm => h (List.mem_cons_of_mem hd hm)
    simp [lookupSignal, h1, ih h2]

/-! ## Membership lemmas for the weight invariant -/

theorem mem_setGroup {t : GroupTable} {name : String} {g : Group}
    {x : String × Group} (h : x ∈ setGroup t name g) : x = (name, g) ∨ x ∈ t := by
  induction t with
  | nil =>
    rw [setGroup] at h
    rcases List.mem_cons.mp h with h1 | h1
    · exact Or.inl h1
    · simp at h1
  | cons hd rest ih =>
    rw [setGroup] at h
    by_cases h1 : hd.1 = name
    · rw [if_pos h1] at h
      rcases List.mem_cons.mp h with h2 | h2
      · left
        rw [h2, h1]
      · exact Or.inr (List.mem_cons_of_mem hd h2)
    · rw [if_neg h1] at h
      rcases List.mem_cons.mp h with h2 | h2
      · exact Or.inr (h2 ▸ List.mem_cons_self hd rest)
      · rcases ih h2 with h3 | h3
        · exact Or.inl h3
        · exact Or.inr (List.mem_cons_of_mem hd h3)

theorem mem_removeGroup {t : GroupTable} {name : String} {x : String × Group}
    (h : x ∈ removeGroup t name) : x ∈ t := by
  induction t with
  | nil => simp [removeGroup] at h
  | cons hd rest ih =>
    rw [removeGroup] at h
    by_cases h1 : hd.1 = name
    · rw [if_pos h1] at h
      exact List.mem_cons_of_mem hd (ih h)
    · rw [if_neg h1] at h
      rcases List.mem_cons.mp h with h2 | h2
      · exact h2 ▸ List.mem_cons_self hd rest
      · exact List.mem_cons_of_mem hd (ih h2)

theorem mem_setTable {pgs : PortGroups} {port : Nat} {t : GroupTable}
    {x : Nat × GroupTable} (h : x ∈ setTable pgs port t) :
    x = (port, t) ∨ x ∈ pgs := by
  induction pgs with
  | nil =>
    rw [setTable] at h
    rcases List.mem_cons.mp h with h1 | h1
    · exact Or.inl h1
    · simp at h1
  | cons hd rest ih =>
    rw [setTable] at h
    by_cases h1 : hd.1 = port
    · rw [if_pos h1] at h
      rcases List.mem_cons.mp h with h2 | h2
      · left
        rw [h2, h1]
      · exact Or.inr (List.mem_cons_of_mem hd h2)
    · rw [if_neg h1] at h
      rcases List.mem_cons.mp h with h2 | h2
      · exact Or.inr (h2 ▸ List.mem_cons_self hd rest)
      · rcases ih h2 with h3 | h3
        · exact Or.inl h3
        · exact Or.inr (List.mem_cons_of_mem hd h3)

theorem mem_of_lookupTable {pgs : PortGroups} {port : Nat} {t : GroupTable}
    (h : lookupTable pgs port = some t) : (port, t) ∈ pgs := by
  induction pgs with
  | nil => simp [lookupTable] at h
  | cons hd rest ih =>
    by_cases h1 : hd.1 = port
    · rw [lookupTable, if_pos h1] at h
      have h2 : hd = (port, t) := Prod.ext h1 (Option.some.inj h)
      rw [← h2]
      exact List.mem_cons_self hd rest
    · rw [lookupTable, if_neg h1] at h
      exact List.mem_cons_of_mem _ (ih h)

theorem tableNonneg_iff {t : GroupTable} :
    tableNonneg t = true ↔ ∀ x ∈ t, 0 ≤ x.2.weight := by
  simp [tableNonneg, List.all_eq_true]

theorem nonnegWeights_iff {pgs : PortGroups} :
    nonnegWeights pgs = true ↔ ∀ x ∈ pgs, tableNonneg x.2 = true := by
  simp [nonnegWeights, List.all_eq_true]

theorem tableNonneg_setGroup {t : GroupTable} {name : String} {g : Group}
    (ht : tableNonneg t = true) (hg : 0 ≤ g.weight) :
    tableNonneg (setGroup t name g) = true := by
  rw [tableNonneg_iff]
  intro x hx
  rcases mem_setGroup hx with h1 | h1
  · rw [h1]; exact hg
  · exact tableNonneg_iff.mp ht x h1

theorem tableNonneg_removeGroup {t : GroupTable} {name : String}
    (ht : tableNonneg t = true) : tableNonneg (removeGroup t name) = true := by
  rw [tableNonneg_iff]
  intro x hx
  exact tableNonneg_iff.mp ht x (mem_removeGroup hx)

theorem tableNonneg_zeroWeights (t : GroupTable) :
    tableNonneg (zeroWeights t) = true := by
  rw [tableNonneg_iff]
  intro x hx
  rcases List.mem_map.mp hx with ⟨y, _, he⟩
  rw [← he]

theorem tableNonneg_activateStep {t : GroupTable} {p : String × ℚ}
    (ht : tableNonneg t = true) : tableNonneg (activateStep t p) = true := by
  unfold activateStep
  cases hfound : lookupGroup t p.1 with
  | none => exact ht
  | some found =>
    have hf : 0 ≤ found.weight :=
      tableNonneg_iff.mp ht (p.1, found) (mem_of_lookupGroup hfound)
    apply tableNonneg_setGroup ht
    by_cases hw : 0 < p.2
    · rw [if_pos hw]
      exact le_of_lt hw
    · rw [if_neg hw]
      exact hf

theorem tableNonneg_foldl_activate {l : List (String × ℚ)} {t : GroupTable}
    (ht : tableNonneg t = true) :
    tableNonneg (l.foldl activateStep t) = true := by
  induction l generalizing t with
  | nil => exact ht
  | cons p rest ih => exact ih (tableNonneg_activateStep ht)

theorem nonnegWeights_setTable {pgs : PortGroups} {port : Nat} {t : GroupTable}
    (h : nonnegWeights pgs = true) (ht : tableNonneg t = true) :
    nonnegWeights (setTable pgs port t) = true := by
  rw [nonnegWeights_iff]
  intro x hx
  rcases mem_setTable hx with h1 | h1
  · rw [h1]; exact ht
  · exact nonnegWeights_iff.mp h x h1

theorem tableNonneg_getD {pgs : PortGroups} {port : Nat}
    (h : nonnegWeights pgs = true) :
    tableNonneg ((lookupTable pgs port).getD []) = true := by
  cases ht : lookupTable pgs port with
  | none => rfl
  | some t => exact nonnegWeights_iff.mp h (port, t) (mem_of_lookupTable ht)

/-! ## The claims -/

/-- Claim C3: `setGroupServers(port, name, servers, weight)` creates the
port's table empty first when it does not exist; on an existing group it
replaces the server list and replaces the weight only when the supplied
weight is positive (weight 0 leaves the prior weight unchanged); on a missing
group it creates the group with exactly the supplied weight (even 0) and
servers.  Other groups and other ports are untouched. -/
theorem setGroupServers_upsert (pgs : PortGroups) (port : Nat) (name : String)
    (servers : List String) (weight : ℚ) :
    ∃ t', lookupTable (setGroupServers pgs port name servers weight) port = some t' ∧
      lookupGroup t' name = some
        (match lookupGroup ((lookupTable pgs port).getD []) name with
         | some old => { weight := if 0 < weight then weight else old.weight,
                         servers := servers }
         | none => { weight := weight, servers := servers }) ∧
      (∀ n, n ≠ name →
        lookupGroup t' n = lookupGroup ((lookupTable pgs port).getD []) n) ∧
      (lookupTable pgs port = none →
        t' = [(name, { weight := weight, servers := servers })]) ∧
      (∀ q, q ≠ port →
        lookupTable (setGroupServers pgs port name servers weight) q =
          lookupTable pgs q) := by
  cases hg : lookupGroup ((lookupTable pgs port).getD []) name with
  | some old =>
    refine ⟨setGroup ((lookupTable pgs port).getD []) name
        { old with servers := servers
                   weight := if 0 < weight then weight else old.weight },
      ?_, ?_, ?_, ?_, ?_⟩
    · simp only [setGroupServers, hg]
      exact lookupTable_setTable_self pgs port _
    · rw [lookupGroup_setGroup_self]
    · intro n hn
      exact lookupGroup_setGroup_ne _ _ _ _ hn
    · intro hnone
      rw [hnone] at hg
      simp [lookupGroup] at hg
    · intro q hq
      simp only [setGroupServers, hg]
      exact lookupTable_setTable_ne pgs port q _ hq
  | none =>
    refine ⟨setGroup ((lookupTable pgs port).getD []) name
        { weight := weight, servers := servers }, ?_, ?_, ?_, ?_, ?_⟩
    · simp only [setGroupServers, hg]
      exact lookupTable_setTable_self pgs port _
    · rw [lookupGroup_setGroup_self]
    · intro n hn
      exact lookupGroup_setGroup_ne _ _ _ _ hn
    · intro hnone
      rw [hnone]
      rfl
    · intro q hq
      simp only [setGroupServers, hg]
      exact lookupTable_setTable_ne pgs port q _ hq

/-- Claim C4: `setActiveGroups(port, names, weights)` leaves every group of
the port's table with servers unchanged and weight `activationWeight`: zero
first, then for each index `i` with `names[i]` in the table the weight
becomes `weights[i]` exactly when `weights[i] > 0`, a missing `weights[i]`
counting as 0.  Unknown names are ignored (no group appears), and other
ports are untouched. -/
theorem setActiveGroups_per_index (pgs : PortGroups) (port : Nat)
    (groups : List String) (weights : List ℚ) (t : GroupTable)
    (ht : lookupTable pgs port = some t) :
    ∃ t', lookupTable (setActiveGroups pgs port groups weights) port = some t' ∧
      (∀ n g, lookupGroup t n = some g →
        lookupGroup t' n =
          some { g with weight := activationWeight groups weights n }) ∧
      (∀ n, lookupGroup t n = none → lookupGroup t' n = none) ∧
      (∀ q, q ≠ port →
        lookupTable (setActiveGroups pgs port groups weights) q =
          lookupTable pgs q) := by
  have he : setActiveGroups pgs port groups weights =
      setTable pgs port
        ((activationPairs groups weights).foldl activateStep (zeroWeights t)) := by
    simp only [setActiveGroups, ht, Option.getD_some]
  refine ⟨(activationPairs groups weights).foldl activateStep (zeroWeights t),
    ?_, ?_, ?_, ?_⟩
  · rw [he]
    exact lookupTable_setTable_self pgs port _
  · intro n g hg
    rw [lookupGroup_foldl_activate, lookupGroup_zeroWeights, hg]
    simp [activationWeight]
  · intro n hg
    rw [lookupGroup_foldl_activate, lookupGroup_zeroWeights, hg]
    rfl
  · intro q hq
    rw [he]
    exact lookupTable_setTable_ne pgs port q _ hq

/-- Claim C8: `setActiveGroups(port, [], [])` zeroes the weight of every
group of the port's table and changes nothing else: same group names in the
same order, same server lists, and every other port's table unchanged. -/
theorem setActiveGroups_empty_drains (pgs : PortGroups) (port : Nat)
    (t : GroupTable) (ht : lookupTable pgs port = some t) :
    lookupTable (setActiveGroups pgs port [] []) port =
      some (t.map fun ng => (ng.1, { ng.2 with weight := 0 })) ∧
    ∀ q, q ≠ port →
      lookupTable (setActiveGroups pgs port [] []) q = lookupTable pgs q := by
  have he : setActiveGroups pgs port [] [] = setTable pgs port (zeroWeights t) := by
    simp only [setActiveGroups, ht, Option.getD_some]
    rfl
  constructor
  · rw [he]
    exact lookupTable_setTable_self pgs port _
  · intro q hq
    rw [he]
    exact lookupTable_setTable_ne pgs port q _ hq

/-- Witness for C4 at a concrete registry: group a gets weight 5, group b is
named without a weight and stays 0, group c is unnamed and is zeroed, the
unknown name x stays absent, and every other port is untouched. -/
theorem setActiveGroups_per_index_witness :
    ∃ t', lookupTable (setActiveGroups sampleRegistry 26257 ["a", "x", "b"] [5])
        26257 = some t' ∧
      (∀ n g, lookupGroup sampleTable n = some g →
        lookupGroup t' n =
          some { g with weight := activationWeight ["a", "x", "b"] [5] n }) ∧
      (∀ n, lookupGroup sampleTable n = none → lookupGroup t' n = none) ∧
      (∀ q, q ≠ 26257 →
        lookupTable (setActiveGroups sampleRegistry 26257 ["a", "x", "b"] [5]) q =
          lookupTable sampleRegistry q) :=
  setActiveGroups_per_index sampleRegistry 26257 ["a", "x", "b"] [5] sampleTable rfl

/-- Witness for C8 at a concrete registry with an active and an inactive
group. -/
theorem setActiveGroups_empty_drains_witness :
    lookupTable (setActiveGroups drainRegistry 26257 [] []) 26257 =
      some (drainTable.map fun ng => (ng.1, { ng.2 with weight := 0 })) ∧
    ∀ q, q ≠ 26257 →
      lookupTable (setActiveGroups drainRegistry 26257 [] []) q =
        lookupTable drainRegistry q :=
  setActiveGroups_empty_drains drainRegistry 26257 drainTable rfl

/-- Counterexample to claim C9 as stated: from a state whose weights are all
non-negative, `setGroupServers` called with a negative weight for a group
that does not yet exist creates the group with that negative weight
(server.go lines 319-324 store the supplied weight unchecked), so the
operation does not preserve the invariant. -/
theorem setGroupServers_negative_weight_cex :
    nonnegWeights [(26257, [])] = true ∧
    nonnegWeights (setGroupServers [(26257, [])] 26257 "g" ["s1"] (-1)) = false := by
  constructor <;> rfl

/-- Claim C9 amended: `deleteGroup` and `setActiveGroups` preserve the
invariant that no group has a negative weight unconditionally; and
`setGroupServers` preserves it provided the supplied weight is non-negative
(with a negative supplied weight it can create a group carrying that negative
weight). -/
theorem registry_ops_preserve_nonneg (pgs : PortGroups) (port : Nat)
    (name : String) (servers : List String) (weight : ℚ)
    (groups : List String) (weights : List ℚ)
    (h : nonnegWeights pgs = true) :
    nonnegWeights (deleteGroup pgs port name) = true ∧
    nonnegWeights (setActiveGroups pgs port groups weights) = true ∧
    (0 ≤ weight → nonnegWeights (setGroupServers pgs port name servers weight) = true) := by
  refine ⟨?_, ?_, ?_⟩
  · unfold deleteGroup
    cases ht : lookupTable pgs port with
    | none => exact h
    | some t =>
      have htn : tableNonneg t = true :=
        nonnegWeights_iff.mp h (port, t) (mem_of_lookupTable ht)
      exact nonnegWeights_setTable h (tableNonneg_removeGroup htn)
  · unfold setActiveGroups
    exact nonnegWeights_setTable h
      (tableNonneg_foldl_activate (tableNonneg_zeroWeights _))
  · intro hw
    cases hg : lookupGroup ((lookupTable pgs port).getD []) name with
    | some old =>
      have htn : tableNonneg ((lookupTable pgs port).getD []) = true :=
        tableNonneg_getD h
      have hold : 0 ≤ old.weight :=
        tableNonneg_iff.mp htn (name, old) (mem_of_lookupGroup hg)
      simp only [setGroupServers, hg]
      apply nonnegWeights_setTable h
      apply tableNonneg_setGroup htn
      by_cases hpos : 0 < weight
      · rw [if_pos hpos]
        exact hw
      · rw [if_neg hpos]
        exact hold
    | none =>
      simp only [setGroupServers, hg]
      apply nonnegWeights_setTable h
      exact tableNonneg_setGroup (tableNonneg_getD h) hw

/-- Claim C5: `select(port)` returns no route exactly when the port has no
table or the table has no active group; and every address it returns belongs
to the server list of an active group (positive weight, non-empty servers) of
that port.  The hypothesis is the Go-map representation invariant (unique
keys in the port's table). -/
theorem selectServer_noRoute_iff_mem (pgs : PortGroups) (port : Nat) (f : ℚ)
    (idx : Nat) (hnd : keysNodup ((lookupTable pgs port).getD [])) :
    (selectServerByWeight pgs port f idx = Outcome.noRoute ↔
      lookupTable pgs port = none ∨
        ∃ t, lookupTable pgs port = some t ∧ activeGroupsOf t = []) ∧
    (∀ a, selectServerByWeight pgs port f idx = Outcome.selected a →
      ∃ t g n, lookupTable pgs port = some t ∧ lookupGroup t n = some g ∧
        0 < g.weight ∧ g.servers ≠ [] ∧ a ∈ g.servers) := by
  cases htbl : lookupTable pgs port with
  | none => simp [selectServerByWeight, htbl]
  | some t =>
    have hnd' : keysNodup t := by
      rw [htbl] at hnd
      exact hnd
    by_cases hact : activeGroupsOf t = []
    · simp [selectServerByWeight, htbl, hact]
    · simp only [selectServerByWeight, htbl]
      rw [if_neg hact]
      by_cases hsel : pickGroup (activeGroupsOf t)
          (f * totalWeightOf (activeGroupsOf t)) 0 = ""
      · rw [if_pos hsel]
        constructor
        · constructor
          · intro hcontra
            simp at hcontra
          · intro hor
            rcases hor with h1 | ⟨t2, ht2, hact2⟩
            · simp at h1
            · rw [← Option.some.inj ht2] at hact2
              exact absurd hact2 hact
        · intro a ha
          simp at ha
      · rw [if_neg hsel]
        rcases List.mem_map.mp (pickGroup_mem_of_ne _ _ _ hsel) with ⟨ag, hag, hagname⟩
        rcases activeGroupsOf_mem hag with ⟨g, hmem, hwpos, hsrv, _⟩
        have hmem' : (pickGroup (activeGroupsOf t)
            (f * totalWeightOf (activeGroupsOf t)) 0, g) ∈ t := by
          rw [← hagname]
          exact hmem
        have hlook : lookupGroup t (pickGroup (activeGroupsOf t)
            (f * totalWeightOf (activeGroupsOf t)) 0) = some g :=
          lookupGroup_of_mem_nodup hnd' hmem'
        simp only [hlook, Option.getD_some]
        rw [if_neg hsrv]
        constructor
        · constructor
          · intro hcontra
            simp at hcontra
          · intro hor
            rcases hor with h1 | ⟨t2, ht2, hact2⟩
            · simp at h1
            · rw [← Option.some.inj ht2] at hact2
              exact absurd hact2 hact
        · intro a ha
          refine ⟨t, g, pickGroup (activeGroupsOf t)
            (f * totalWeightOf (activeGroupsOf t)) 0, rfl, hlook, hwpos, hsrv, ?_⟩
          rw [← Outcome.selected.inj ha]
          exact getD_mod_mem hsrv idx

/-- Witness for C5: on a registry with three groups the selector's outcome at
a concrete draw is characterized as the claim states. -/
theorem selectServer_noRoute_iff_mem_witness :
    (selectServerByWeight sampleRegistry 26257 (1/2) 0 = Outcome.noRoute ↔
      lookupTable sampleRegistry 26257 = none ∨
        ∃ t, lookupTable sampleRegistry 26257 = some t ∧ activeGroupsOf t = []) ∧
    (∀ a, selectServerByWeight sampleRegistry 26257 (1/2) 0 = Outcome.selected a →
      ∃ t g n, lookupTable sampleRegistry 26257 = some t ∧ lookupGroup t n = some g ∧
        0 < g.weight ∧ g.servers ≠ [] ∧ a ∈ g.servers) :=
  selectServer_noRoute_iff_mem sampleRegistry 26257 (1/2) 0 (by decide)

/-- Counterexample to claim C6 as stated: a single active group literally
named `""` — creatable through the control plane, which validates no group
name — satisfies every premise of the claim (unique keys, a non-empty active
set, a draw `r = 0 * totalWeight` in `[0, totalWeight)`), the scan selects
that group, yet the `selectedGroup == ""` sentinel check misfires and the
code reaches the "no group selected" `Fatal` branch. -/
theorem selectServer_empty_name_fatal_cex :
    keysNodup [("", { weight := 1, servers := ["s1"] })] ∧
    activeGroupsOf [("", { weight := 1, servers := ["s1"] })] ≠ [] ∧
    selectServerByWeight [(26257, [("", { weight := 1, servers := ["s1"] })])]
      26257 0 0 = Outcome.fatalExit := by
  refine ⟨by decide, by decide, ?_⟩
  have h1 : lookupTable [(26257, [("", { weight := 1, servers := ["s1"] })])]
      26257 = some [("", { weight := 1, servers := ["s1"] })] := rfl
  have h2 : activeGroupsOf [("", { weight := 1, servers := ["s1"] })] =
      [{ name := "", weight := 1 }] := rfl
  have h3 : pickGroup [{ name := "", weight := 1 }] (0 : ℚ) 0 = "" := by
    norm_num [pickGroup]
  simp [selectServerByWeight, h1, h2, h3]

/-- Claim C6 amended: with at least one active group, none of which is named
with the empty string (the source's "nothing selected" sentinel value), the
cumulative-weight scan selects some active group for any draw
`r = f * totalWeight` with `f` in `[0, 1)`, and consequently the two `Fatal`
branches of `selectServerByWeight` ("no group selected", "no servers
available") are not reached.  With an active group literally named `""` the
sentinel check misfires and the process exits even though the scan selected
that group. -/
theorem pickGroup_total_no_fatal (pgs : PortGroups) (port : Nat) (f : ℚ)
    (idx : Nat) (t : GroupTable) (ht : lookupTable pgs port = some t)
    (hnd : keysNodup t) (hne : activeGroupsOf t ≠ [])
    (hname : "" ∉ (activeGroupsOf t).map fun g => g.name)
    (_hf0 : 0 ≤ f) (hf1 : f < 1) :
    pickGroup (activeGroupsOf t) (f * totalWeightOf (activeGroupsOf t)) 0
      ∈ (activeGroupsOf t).map (fun g => g.name) ∧
    selectServerByWeight pgs port f idx ≠ Outcome.fatalExit := by
  have hpos : ∀ g ∈ activeGroupsOf t, 0 < g.weight := fun g hg => activeGroupsOf_pos hg
  have htw : 0 < totalWeightOf (activeGroupsOf t) := totalWeightOf_pos hne hpos
  have hr : f * totalWeightOf (activeGroupsOf t) ≤
      0 + totalWeightOf (activeGroupsOf t) := by
    rw [zero_add]
    nlinarith
  have hselmem := pickGroup_mem_of_le (activeGroupsOf t)
    (f * totalWeightOf (activeGroupsOf t)) 0 hne hr
  refine ⟨hselmem, ?_⟩
  have hselne : pickGroup (activeGroupsOf t)
      (f * totalWeightOf (activeGroupsOf t)) 0 ≠ "" := by
    intro he
    rw [he] at hselmem
    exact hname hselmem
  rcases List.mem_map.mp hselmem with ⟨ag, hag, hagname⟩
  rcases activeGroupsOf_mem hag with ⟨g, hmem, _, hsrv, _⟩
  have hmem' : (pickGroup (activeGroupsOf t)
      (f * totalWeightOf (activeGroupsOf t)) 0, g) ∈ t := by
    rw [← hagname]
    exact hmem
  have hlook : lookupGroup t (pickGroup (activeGroupsOf t)
      (f * totalWeightOf (activeGroupsOf t)) 0) = some g :=
    lookupGroup_of_mem_nodup hnd hmem'
  simp only [selectServerByWeight, ht]
  rw [if_neg hne, if_neg hselne]
  simp only [hlook, Option.getD_some]
  rw [if_neg hsrv]
  simp

/-- Witness for the amended C6 at a concrete registry (no group named `""`)
and a concrete draw. -/
theorem pickGroup_total_no_fatal_witness :
    pickGroup (activeGroupsOf sampleTable)
      ((1/2) * totalWeightOf (activeGroupsOf sampleTable)) 0
      ∈ (activeGroupsOf sampleTable).map (fun g => g.name) ∧
    selectServerByWeight sampleRegistry 26257 (1/2) 0 ≠ Outcome.fatalExit :=
  pickGroup_total_no_fatal sampleRegistry 26257 (1/2) 0 sampleTable rfl
    (by decide) (by decide) (by decide) (by norm_num) (by norm_num)

/-- Claim C1, what the code actually does in the invariant-violation branch:
when the cumulative scan fails to pick (here exhibited with a draw beyond the
total weight, the floating-point boundary defect the spec names), the
embedded `selectServerByWeight` reaches the branch that calls zerolog's
`Fatal`, i.e. terminates the whole process rather than treating the failure
as a no-route outcome for that single connection. -/
theorem selectServer_fatal_branch :
    selectServerByWeight [(26257, [("g", { weight := 1, servers := ["s1"] })])]
      26257 2 0 = Outcome.fatalExit := by
  have h1 : lookupTable [(26257, [("g", { weight := 1, servers := ["s1"] })])]
      26257 = some [("g", { weight := 1, servers := ["s1"] })] := rfl
  have h2 : activeGroupsOf [("g", { weight := 1, servers := ["s1"] })] =
      [{ name := "g", weight := 1 }] := rfl
  have h3 : totalWeightOf [{ name := "g", weight := 1 }] = 1 := by
    norm_num [totalWeightOf]
  have h4 : pickGroup [{ name := "g", weight := 1 }] (2 : ℚ) 0 = "" := by
    rw [pickGroup, if_neg]
    · rfl
    · norm_num
  simp [selectServerByWeight, h1, h2, h3, h4]

/-- Witness for the amended C9 at a concrete state and concrete operation
arguments. -/
theorem registry_ops_preserve_nonneg_witness :
    nonnegWeights (deleteGroup sampleRegistry 26257 "a") = true ∧
    nonnegWeights (setActiveGroups sampleRegistry 26257 ["a"] [3]) = true ∧
    (0 ≤ (2 : ℚ) →
      nonnegWeights (setGroupServers sampleRegistry 26257 "d" ["s4"] 2) = true) :=
  registry_ops_preserve_nonneg sampleRegistry 26257 "d" ["s4"] 2 ["a"] [3] rfl

/-- Counterexample to claim C7 as stated: an activation call for port 9999 on
a server started with only port 26257 does not advance any generation — the
handler panics on `close(nil)` after the registry mutation, leaving the
terminate signals exactly as they were. -/
theorem handleActivation_unregistered_cex :
    handleActivation (New [26257]) 9999 [] [] =
      ActivationResult.panicked
        { portGroups := [(26257, []), (9999, [])]
          terminateSignals := [(26257, 0)]
          closedGens := [] } := by
  rfl

/-- Claim C7 amended: for every activation request on a port that has a
terminate signal (every port registered at startup), the registry mutation
`setActiveGroups` is applied first and then the generation is advanced
unconditionally — the current token is closed and a fresh one installed —
even when the requested groups and weights leave the table unchanged. -/
theorem handleActivation_registered (st : ServerState) (port : Nat)
    (groups : List String) (weights : List ℚ) (g : Nat)
    (hsig : lookupSignal st.terminateSignals port = some g) :
    handleActivation st port groups weights =
      ActivationResult.ok
        { portGroups := setActiveGroups st.portGroups port groups weights
          terminateSignals := setSignal st.terminateSignals port (g + 1)
          closedGens := (port, g) :: st.closedGens } := by
  simp only [handleActivation, hsig]

/-- Witness for the amended C7: activating port 26257 on a freshly
constructed server mutates the registry, closes generation 0 and installs
generation 1. -/
theorem handleActivation_registered_witness :
    handleActivation (New [26257]) 26257 ["a"] [2] =
      ActivationResult.ok
        { portGroups := setActiveGroups (New [26257]).portGroups 26257 ["a"] [2]
          terminateSignals := setSignal (New [26257]).terminateSignals 26257 (0 + 1)
          closedGens := [(26257, 0)] } :=
  handleActivation_registered (New [26257]) 26257 ["a"] [2] 0 rfl

/-- Claim C10: for a port outside the startup list, the activation handler
first succeeds in mutating the registry (the group table is created lazily by
`setActiveGroups`), and then panics closing the nil terminate-signal channel:
tokens are created only in the constructor and never lazily, so the port has
none. -/
theorem activation_unregistered_panics (ports : List Nat) (port : Nat)
    (groups : List String) (weights : List ℚ) (hport : port ∉ ports) :
    handleActivation (New ports) port groups weights =
      ActivationResult.panicked
        { portGroups := setActiveGroups (New ports).portGroups port groups weights
          terminateSignals := (New ports).terminateSignals
          closedGens := [] } ∧
    (lookupTable (setActiveGroups (New ports).portGroups port groups weights)
      port).isSome = true ∧
    lookupSignal (New ports).terminateSignals port = none := by
  have hsig : lookupSignal (New ports).terminateSignals port = none :=
    lookupSignal_new_none hport
  refine ⟨?_, ?_, hsig⟩
  · simp only [handleActivation, hsig]
    rfl
  · simp only [setActiveGroups]
    rw [lookupTable_setTable_self]
    rfl

/-- Witness for C10: a server started on port 26257 receiving an activation
for port 9999. -/
theorem activation_unregistered_panics_witness :
    handleActivation (New [26257]) 9999 ["a"] [1] =
      ActivationResult.panicked
        { portGroups := setActiveGroups (New [26257]).portGroups 9999 ["a"] [1]
          terminateSignals := (New [26257]).terminateSignals
          closedGens := [] } ∧
    (lookupTable (setActiveGroups (New [26257]).portGroups 9999 ["a"] [1])
      9999).isSome = true ∧
    lookupSignal (New [26257]).terminateSignals 9999 = none :=
  activation_unregistered_panics [26257] 9999 ["a"] [1] (by decide)

/-- Claim C2, what the code actually does: `handleClient` reads the port's
terminate signal at block time (server.go line 173), not at dial-success
time, so an execution exists in which the dial succeeds under generation 0,
an activation advances the port to generation 1, and the connection then
blocks on generation 1 — the state reached violates the claimed property
that a connection always waits on the token live at dial success. -/
theorem handleClient_block_time_read :
    CReach
      { phase := ConnPhase.started, dialGen := none, gen := 0, closedList := [] }
      { phase := ConnPhase.waiting 1, dialGen := some 0, gen := 1,
        closedList := [0] } ∧
    ¬ waitsOnDialGen
      { phase := ConnPhase.waiting 1, dialGen := some 0, gen := 1,
        closedList := [0] } := by
  constructor
  · have s1 : CStep
        { phase := ConnPhase.started, dialGen := none, gen := 0, closedList := [] }
        { phase := ConnPhase.dialed, dialGen := some 0, gen := 0, closedList := [] } :=
      CStep.dialOk _ rfl
    have s2 : CStep
        { phase := ConnPhase.dialed, dialGen := some 0, gen := 0, closedList := [] }
        { phase := ConnPhase.dialed, dialGen := some 0, gen := 1, closedList := [0] } :=
      CStep.advanceGen _
    have s3 : CStep
        { phase := ConnPhase.dialed, dialGen := some 0, gen := 1, closedList := [0] }
        { phase := ConnPhase.waiting 1, dialGen := some 0, gen := 1,
          closedList := [0] } :=
      CStep.blockOnToken _ rfl
    exact Relation.ReflTransGen.head s1
      (Relation.ReflTransGen.head s2 (Relation.ReflTransGen.single s3))
  · intro hw
    have h1 := hw 1 rfl
    simp at h1

end DP
